import Mathlib

/-!
Shallow embedding of the CulinaryQ live voice-assistant core.

The embedded code comes from two source modules:
* the audio codec utilities of the Gemini service layer
  (encodeAudio, decodeBase64, decodeAudioData), and
* the LiveAssistant component (onmessage playback scheduling,
  transcript log, interruption handling, stopAssistant).

Bytes are naturals < 256, 16-bit PCM values are integers, audio
samples and output-device timestamps are rationals (every operation
the source performs on them — multiply/divide by the power of two
32768, truncation to integer, max, addition — is exact in binary
floating point, so the rational model is faithful on representable
inputs).
-/

namespace CulinaryQ

/-! ### Base64 transport encoding

`encodeAudio` turns the PCM bytes into a binary string (one code unit
per byte) and applies btoa; `decodeBase64` applies atob and reads the
code units back.  We embed the byte-level base64 mapping: `b64encode`
maps a byte list to the list of character codes of the base64 text,
`b64decode` inverts it. -/

/-- Character code of the base64 digit with index `n` (standard alphabet
A-Z a-z 0-9 + /). -/
def sextetToChar (n : ℕ) : ℕ :=
  if n < 26 then 65 + n
  else if n < 52 then 97 + (n - 26)
  else if n < 62 then 48 + (n - 52)
  else if n = 62 then 43
  else 47

/-- Index of a base64 digit, from its character code (inverse of
`sextetToChar` on the alphabet). -/
def charToSextet (c : ℕ) : ℕ :=
  if 65 ≤ c ∧ c ≤ 90 then c - 65
  else if 97 ≤ c ∧ c ≤ 122 then c - 97 + 26
  else if 48 ≤ c ∧ c ≤ 57 then c - 48 + 52
  else if c = 43 then 62
  else if c = 47 then 63
  else 0

/-- Character code of the padding character. -/
def padChar : ℕ := 61

/-- btoa on a byte list: groups of three bytes become four base64
characters, with `=` padding for a final group of one or two bytes. -/
def b64encode : List ℕ → List ℕ
  | [] => []
  | [a] =>
      [sextetToChar (a / 4), sextetToChar (a % 4 * 16), padChar, padChar]
  | [a, b] =>
      [sextetToChar (a / 4), sextetToChar (a % 4 * 16 + b / 16),
       sextetToChar (b % 16 * 4), padChar]
  | a :: b :: c :: rest =>
      sextetToChar (a / 4) :: sextetToChar (a % 4 * 16 + b / 16) ::
      sextetToChar (b % 16 * 4 + c / 64) :: sextetToChar (c % 64) ::
      b64encode rest

/-- atob on a base64 character-code list, producing bytes. -/
def b64decode : List ℕ → List ℕ
  | x :: y :: z :: w :: rest =>
      let d1 := charToSextet x * 4 + charToSextet y / 16
      let d2 := charToSextet y % 16 * 16 + charToSextet z / 4
      let d3 := charToSextet z % 4 * 64 + charToSextet w
      if w = padChar then
        if z = padChar then [d1] else [d1, d2]
      else
        d1 :: d2 :: d3 :: b64decode rest
  | _ => []

/-- The byte-to-base64-text step of `encodeAudio` (String.fromCharCode
over the bytes, then btoa). -/
def transportEncode (bytes : List ℕ) : List ℕ := b64encode bytes

/-- `decodeBase64`: atob, then charCodeAt per position. -/
def transportDecode (text : List ℕ) : List ℕ := b64decode text

/-! ### PCM16 codec -/

/-- Truncation of a rational toward zero, as performed by the
JavaScript number-to-integer conversion. -/
def truncRat (q : ℚ) : ℤ := if 0 ≤ q then ⌊q⌋ else ⌈q⌉

/-- JavaScript ToInt16: reduce mod 2^16 and reinterpret as signed. -/
def toInt16 (n : ℤ) : ℤ := (n + 32768) % 65536 - 32768

/-- One sample of `encodeAudio`: `int16[i] = data[i] * 32768` stores the
truncated product into an Int16Array slot (wrapping, no clipping). -/
def encodeSample (q : ℚ) : ℤ := toInt16 (truncRat (q * 32768))

/-- Little-endian byte pair of an int16 value, as laid out in the
Int16Array backing buffer read by `encodeAudio`. -/
def int16ToBytes (v : ℤ) : List ℕ :=
  let u := (v % 65536).toNat
  [u % 256, u / 256]

/-- `encodeFrame`: the sample-to-bytes part of `encodeAudio`
(Float32 samples to PCM16 little-endian bytes). -/
def encodeFrame : List ℚ → List ℕ
  | [] => []
  | x :: rest => int16ToBytes (encodeSample x) ++ encodeFrame rest

/-- Reinterpret a (little-endian) byte pair list as signed 16-bit
integers, as `new Int16Array(data.buffer)` does. -/
def bytesToInt16 : List ℕ → List ℤ
  | b0 :: b1 :: rest =>
      (let u := b0 + 256 * b1
       if 32768 ≤ u then (u : ℤ) - 65536 else (u : ℤ)) :: bytesToInt16 rest
  | _ => []

/-- `decodeFrame`, embedding `decodeAudioData`.  Two throwing paths are
modelled as `none`: constructing the Int16Array view throws
(RangeError) when the byte length is odd, and
`ctx.createBuffer(numChannels, frameCount, sampleRate)` throws
(NotSupportedError) when the WebIDL-truncated frame count is zero —
that is, when `⌊int16Count / numChannels⌋ = 0`, which covers empty
input, byte length below `2 * numChannels`, and `numChannels = 0`
(`int16Count / 0` is NaN or Infinity, both of which WebIDL converts to
the length 0).  Otherwise each channel `c` receives
`dataInt16[i * numChannels + c] / 32768` for `i` below the floored
frame count (the out-of-bounds Float32Array writes of a fractional
frame count are silently dropped). -/
def decodeFrame (bytes : List ℕ) (numChannels : ℕ) : Option (List (List ℚ)) :=
  if bytes.length % 2 ≠ 0 then none
  else if (bytesToInt16 bytes).length / numChannels = 0 then none
  else
    some ((List.range numChannels).map (fun c =>
      (List.range ((bytesToInt16 bytes).length / numChannels)).map (fun i =>
        (((bytesToInt16 bytes).getD (i * numChannels + c) 0 : ℚ) / 32768))))

/-! ### LiveAssistant session state

The component state: `nextStartTimeRef` (output-clock cursor),
`sourcesRef` (set of in-flight AudioBufferSourceNodes, modelled by
ids, with a `played` log recording every created source and whether
`stop()` has been called on it), `transcript`, `sessionRef` and
`isActive`.  `micOpen` records whether the getUserMedia stream
acquired in `startAssistant` is still open (no code path closes it). -/

structure Source where
  id : ℕ
  start : ℚ
  dur : ℚ
  stopped : Bool
deriving DecidableEq, Repr, Inhabited

structure AState where
  nextStartTime : ℚ
  pending : List ℕ
  played : List Source
  transcript : List String
  nextId : ℕ
  session : Option ℕ
  isActive : Bool
  micOpen : Bool
deriving DecidableEq, Repr

/-- Component state right after `startAssistant` succeeds: refs at
their initial values, a live session, the microphone stream open. -/
def initState : AState :=
  { nextStartTime := 0, pending := [], played := [], transcript := [],
    nextId := 0, session := some 0, isActive := true, micOpen := true }

/-- The audio branch of `onmessage`:
`nextStartTime := max nextStartTime ctx.currentTime`; create a buffer
source, `start` it at that time, advance the cursor by the buffer
duration, and add the source to the pending set. -/
def processAudio (now dur : ℚ) (s : AState) : AState :=
  let startTime := max s.nextStartTime now
  { s with
    nextStartTime := startTime + dur,
    played := s.played ++ [⟨s.nextId, startTime, dur, false⟩],
    pending := s.pending ++ [s.nextId],
    nextId := s.nextId + 1 }

/-- The interrupted branch of `onmessage`: `stop()` every source in the
pending set, clear the set, reset the cursor to 0. -/
def onInterrupted (s : AState) : AState :=
  { s with
    played := s.played.map (fun src =>
      if src.id ∈ s.pending then { src with stopped := true } else src),
    pending := [],
    nextStartTime := 0 }

/-- `setTranscript(prev => [...prev.slice(-4), line])`: keep the last
four entries and append the new line. -/
def pushLine (log : List String) (line : String) : List String :=
  log.drop (log.length - 4) ++ [line]

/-- An inbound `LiveServerMessage` as the `onmessage` handler reads it:
optional inline audio (base64 character codes), optional output and
input transcription fragments, and the interrupted flag. -/
structure LiveServerMessage where
  audioData : Option (List ℕ)
  outputTranscription : Option String
  inputTranscription : Option String
  interrupted : Bool
deriving DecidableEq, Repr

/-- Duration of the decoded buffer for an inbound chunk:
`decodeAudioData(decodeBase64(audioData), ctx, 24000, 1)` yields
`frameCount = byteLength / 2` frames at 24 kHz. -/
def chunkDuration (b64 : List ℕ) : ℚ :=
  (((transportDecode b64).length / 2 : ℕ) : ℚ) / 24000

/-- The part of the `onmessage` handler after the audio branch: the
output / input transcription pushes, then the interrupted branch. -/
def processRest (s : AState) (msg : LiveServerMessage) : AState :=
  let s2 := match msg.outputTranscription with
    | some t => { s with transcript := pushLine s.transcript ("Genie: " ++ t) }
    | none => s
  let s3 := match msg.inputTranscription with
    | some t => { s2 with transcript := pushLine s2.transcript ("You: " ++ t) }
    | none => s2
  if msg.interrupted then onInterrupted s3 else s3

/-- One run of the async `onmessage` handler at output time `now`.
When the message carries audio, the handler first clamps the cursor
(`nextStartTimeRef.current = Math.max(nextStartTimeRef.current,
ctx.currentTime)`) and then awaits `decodeAudioData`: if that decode
throws, the async handler aborts there — the cursor clamp has already
happened, but no source is scheduled and the transcript pushes and
interrupted check are never reached.  On a successful decode the chunk
is scheduled and the rest of the handler runs; without audio the rest
of the handler runs directly. -/
def processMessage (now : ℚ) (msg : LiveServerMessage) (s : AState) : AState :=
  match msg.audioData with
  | some b64 =>
      match decodeFrame (transportDecode b64) 1 with
      | none => { s with nextStartTime := max s.nextStartTime now }
      | some _ => processRest (processAudio now (chunkDuration b64) s) msg
  | none => processRest s msg

/-- A pure Interrupted control message. -/
def interruptMsg : LiveServerMessage :=
  { audioData := none, outputTranscription := none,
    inputTranscription := none, interrupted := true }

/-- `stopAssistant`: close and null the session ref if set, then clear
the active flag.  Nothing else is touched. -/
def stopAssistant (s : AState) : AState :=
  match s.session with
  | some _ => { s with session := none, isActive := false }
  | none => { s with isActive := false }

/-! ### Chunk sequences

For the scheduler claims we run a sequence of audio chunks, each given
by the output-device time `now` at which its message is processed and
its decoded duration. -/

/-- Process a list of (arrival time, duration) audio chunks in order. -/
def runChunks (s : AState) (cs : List (ℚ × ℚ)) : AState :=
  cs.foldl (fun st c => processAudio c.1 c.2 st) s

/-- The assigned start times, in scheduling order. -/
def startsOf (s : AState) : List ℚ := s.played.map Source.start

/-- Start times produced by the scheduling recurrence
`start = max cursor now; cursor := start + dur`, from a given cursor. -/
def schedStarts (cursor : ℚ) : List (ℚ × ℚ) → List ℚ
  | [] => []
  | c :: rest => max cursor c.1 :: schedStarts (max cursor c.1 + c.2) rest

/-- Cursor value after the scheduling recurrence. -/
def schedCursor (cursor : ℚ) : List (ℚ × ℚ) → ℚ
  | [] => cursor
  | c :: rest => schedCursor (max cursor c.1 + c.2) rest

/-! ### Base64 round trip -/

theorem charToSextet_sextetToChar : ∀ n < 64, charToSextet (sextetToChar n) = n := by
  decide

theorem sextetToChar_ne_pad : ∀ n < 64, sextetToChar n ≠ padChar := by
  decide

theorem b64_roundtrip : ∀ l : List ℕ, (∀ x ∈ l, x < 256) → b64decode (b64encode l) = l
  | [], _ => rfl
  | [a], h => by
      have ha : a < 256 := h a (by simp)
      have h1 : charToSextet (sextetToChar (a / 4)) = a / 4 :=
        charToSextet_sextetToChar _ (by omega)
      have h2 : charToSextet (sextetToChar (a % 4 * 16)) = a % 4 * 16 :=
        charToSextet_sextetToChar _ (by omega)
      have hz : sextetToChar (a % 4 * 16) ≠ padChar :=
        sextetToChar_ne_pad _ (by omega)
      simp [b64encode, b64decode, hz, h1, h2]
      omega
  | [a, b], h => by
      have ha : a < 256 := h a (by simp)
      have hb : b < 256 := h b (by simp)
      have h1 : charToSextet (sextetToChar (a / 4)) = a / 4 :=
        charToSextet_sextetToChar _ (by omega)
      have h2 : charToSextet (sextetToChar (a % 4 * 16 + b / 16)) = a % 4 * 16 + b / 16 :=
        charToSextet_sextetToChar _ (by omega)
      have h3 : charToSextet (sextetToChar (b % 16 * 4)) = b % 16 * 4 :=
        charToSextet_sextetToChar _ (by omega)
      have hz : sextetToChar (b % 16 * 4) ≠ padChar :=
        sextetToChar_ne_pad _ (by omega)
      simp [b64encode, b64decode, hz, h1, h2, h3]
      constructor <;> omega
  | a :: b :: c :: rest, h => by
      have ha : a < 256 := h a (by simp)
      have hb : b < 256 := h b (by simp)
      have hc : c < 256 := h c (by simp)
      have ih := b64_roundtrip rest (fun x hx => h x (by simp [hx]))
      have h1 : charToSextet (sextetToChar (a / 4)) = a / 4 :=
        charToSextet_sextetToChar _ (by omega)
      have h2 : charToSextet (sextetToChar (a % 4 * 16 + b / 16)) = a % 4 * 16 + b / 16 :=
        charToSextet_sextetToChar _ (by omega)
      have h3 : charToSextet (sextetToChar (b % 16 * 4 + c / 64)) = b % 16 * 4 + c / 64 :=
        charToSextet_sextetToChar _ (by omega)
      have h4 : charToSextet (sextetToChar (c % 64)) = c % 64 :=
        charToSextet_sextetToChar _ (by omega)
      have hw : sextetToChar (c % 64) ≠ padChar :=
        sextetToChar_ne_pad _ (by omega)
      simp [b64encode, b64decode, hw, h1, h2, h3, h4, ih]
      refine ⟨by omega, by omega, by omega⟩

/-! ### PCM codec lemmas -/

theorem toInt16_range (n : ℤ) : -32768 ≤ toInt16 n ∧ toInt16 n < 32768 := by
  unfold toInt16
  constructor <;> omega

theorem toInt16_eq_of_range (n : ℤ) (h1 : -32768 ≤ n) (h2 : n < 32768) :
    toInt16 n = n := by
  unfold toInt16
  omega

theorem bytesToInt16_int16ToBytes (v : ℤ) (h1 : -32768 ≤ v) (h2 : v < 32768)
    (rest : List ℕ) :
    bytesToInt16 (int16ToBytes v ++ rest) = v :: bytesToInt16 rest := by
  simp only [int16ToBytes, bytesToInt16, List.cons_append, List.nil_append]
  congr 1
  split_ifs <;> omega

theorem bytesToInt16_encodeFrame (s : List ℚ) :
    bytesToInt16 (encodeFrame s) = s.map encodeSample := by
  induction s with
  | nil => rfl
  | cons x xs ih =>
      have hr := toInt16_range (truncRat (x * 32768))
      simp only [encodeFrame, List.map_cons]
      rw [bytesToInt16_int16ToBytes (encodeSample x) hr.1 hr.2, ih]

theorem encodeFrame_length (s : List ℚ) : (encodeFrame s).length = 2 * s.length := by
  induction s with
  | nil => rfl
  | cons x xs ih => simp [encodeFrame, int16ToBytes, ih]; ring

theorem map_getD_range {α β : Type} (d : α) (f : α → β) (l : List α) :
    (List.range l.length).map (fun i => f (l.getD i d)) = l.map f := by
  induction l with
  | nil => rfl
  | cons x xs ih =>
      rw [List.length_cons, List.range_succ_eq_map]
      simp only [List.map_cons, List.map_map, List.getD_cons_zero]
      refine congrArg _ ?_
      calc (List.range xs.length).map ((fun i => f ((x :: xs).getD i d)) ∘ Nat.succ)
          = (List.range xs.length).map (fun i => f (xs.getD i d)) := by
            refine List.map_congr_left (fun i _ => ?_)
            simp [Function.comp, List.getD_cons_succ]
        _ = xs.map f := ih

theorem bytesToInt16_length : ∀ b : List ℕ, (bytesToInt16 b).length = b.length / 2
  | [] => rfl
  | [_] => by simp [bytesToInt16]
  | _ :: _ :: rest => by
      simp only [bytesToInt16, List.length_cons]
      rw [bytesToInt16_length rest]
      omega

theorem decode_encodeFrame (s : List ℚ) (hs : s ≠ []) :
    decodeFrame (encodeFrame s) 1
      = some [s.map (fun x => ((encodeSample x : ℚ)) / 32768)] := by
  have hlen16 : (bytesToInt16 (encodeFrame s)).length = s.length := by
    rw [bytesToInt16_encodeFrame]
    exact List.length_map s encodeSample
  unfold decodeFrame
  rw [if_neg (by rw [encodeFrame_length]; omega)]
  rw [if_neg (by
    rw [hlen16, Nat.div_one]
    exact fun hlen0 => hs (List.length_eq_zero.mp hlen0))]
  rw [bytesToInt16_encodeFrame]
  have hlen : (s.map encodeSample).length = s.length := List.length_map s encodeSample
  have hr1 : List.range 1 = [0] := rfl
  simp only [hr1, List.map_cons, List.map_nil, Nat.div_one, hlen, mul_one, add_zero]
  refine congrArg some (congrArg (fun l => [l]) ?_)
  have h := map_getD_range (0 : ℤ) (fun v : ℤ => ((v : ℚ)) / 32768) (s.map encodeSample)
  rw [hlen] at h
  calc (List.range s.length).map
        (fun i => (((s.map encodeSample).getD i 0 : ℚ)) / 32768)
      = (s.map encodeSample).map (fun v : ℤ => ((v : ℚ)) / 32768) := h
    _ = s.map (fun x => ((encodeSample x : ℚ)) / 32768) := by
        rw [List.map_map]
        rfl

theorem abs_truncRat_sub_le (q : ℚ) : |(truncRat q : ℚ) - q| ≤ 1 := by
  unfold truncRat
  rw [abs_le]
  split_ifs with h
  · have h1 := Int.sub_one_lt_floor q
    have h2 := Int.floor_le q
    constructor <;> linarith
  · have h1 := Int.le_ceil q
    have h2 := Int.ceil_lt_add_one q
    constructor <;> linarith

theorem truncRat_range (q : ℚ) (h1 : -32768 ≤ q) (h2 : q < 32768) :
    -32768 ≤ truncRat q ∧ truncRat q < 32768 := by
  unfold truncRat
  split_ifs with h
  · constructor
    · have : (0 : ℤ) ≤ ⌊q⌋ := Int.floor_nonneg.mpr h
      omega
    · exact Int.floor_lt.mpr (by exact_mod_cast h2)
  · constructor
    · have hq : ((-32768 : ℤ) : ℚ) ≤ q := by exact_mod_cast h1
      have := Int.le_ceil q
      have : ((-32768 : ℤ) : ℚ) ≤ (⌈q⌉ : ℚ) := le_trans hq this
      exact_mod_cast this
    · have : (⌈q⌉ : ℤ) ≤ 0 := Int.ceil_le.mpr (by exact_mod_cast le_of_not_le h)
      omega

theorem encodeSample_eq_trunc (x : ℚ) (h1 : -1 ≤ x) (h2 : x < 1) :
    encodeSample x = truncRat (x * 32768) := by
  unfold encodeSample
  have hr := truncRat_range (x * 32768) (by linarith) (by linarith)
  exact toInt16_eq_of_range _ hr.1 hr.2

theorem sample_error (x : ℚ) (h1 : -1 ≤ x) (h2 : x < 1) :
    |((encodeSample x : ℚ)) / 32768 - x| ≤ 1 / 32768 := by
  rw [encodeSample_eq_trunc x h1 h2]
  have h := abs_truncRat_sub_le (x * 32768)
  rw [abs_le] at h ⊢
  constructor <;> [linarith; linarith]

/-! ### Scheduler lemmas -/

theorem runChunks_cons (s : AState) (c : ℚ × ℚ) (cs : List (ℚ × ℚ)) :
    runChunks s (c :: cs) = runChunks (processAudio c.1 c.2 s) cs := rfl

theorem startsOf_processAudio (now dur : ℚ) (s : AState) :
    startsOf (processAudio now dur s) = startsOf s ++ [max s.nextStartTime now] := by
  simp [processAudio, startsOf]

theorem cursor_processAudio (now dur : ℚ) (s : AState) :
    (processAudio now dur s).nextStartTime = max s.nextStartTime now + dur := rfl

theorem startsOf_runChunks (s : AState) (cs : List (ℚ × ℚ)) :
    startsOf (runChunks s cs) = startsOf s ++ schedStarts s.nextStartTime cs := by
  induction cs generalizing s with
  | nil => simp [runChunks, schedStarts]
  | cons c cs ih =>
      rw [runChunks_cons, ih, startsOf_processAudio, cursor_processAudio, schedStarts,
        List.append_assoc, List.singleton_append]

theorem cursor_runChunks (s : AState) (cs : List (ℚ × ℚ)) :
    (runChunks s cs).nextStartTime = schedCursor s.nextStartTime cs := by
  induction cs generalizing s with
  | nil => rfl
  | cons c cs ih => rw [runChunks_cons, ih, cursor_processAudio, schedCursor]

theorem schedStarts_length (cursor : ℚ) (cs : List (ℚ × ℚ)) :
    (schedStarts cursor cs).length = cs.length := by
  induction cs generalizing cursor with
  | nil => rfl
  | cons c cs ih => simp [schedStarts, ih]

theorem schedStarts_gapless (i : ℕ) :
    ∀ (cs : List (ℚ × ℚ)) (cursor : ℚ), i + 1 < cs.length →
    (cs.getD (i + 1) (0, 0)).1 ≤ schedCursor cursor (cs.take (i + 1)) →
    (schedStarts cursor cs).getD (i + 1) 0
      = (schedStarts cursor cs).getD i 0 + (cs.getD i (0, 0)).2 := by
  induction i with
  | zero =>
      intro cs cursor hlen hcond
      match cs with
      | c0 :: c1 :: rest =>
          simp only [List.take, schedCursor, List.getD_cons_succ, List.getD_cons_zero,
            schedStarts] at hcond ⊢
          exact max_eq_left hcond
  | succ i ih =>
      intro cs cursor hlen hcond
      match cs with
      | c :: rest =>
          simp only [List.take, schedCursor, List.getD_cons_succ, schedStarts] at hcond ⊢
          exact ih rest (max cursor c.1 + c.2) (by simpa using hlen) hcond

theorem schedStarts_no_overlap (i : ℕ) :
    ∀ (cs : List (ℚ × ℚ)) (cursor : ℚ), i + 1 < cs.length →
    (schedStarts cursor cs).getD i 0 + (cs.getD i (0, 0)).2
      ≤ (schedStarts cursor cs).getD (i + 1) 0 := by
  induction i with
  | zero =>
      intro cs cursor hlen
      match cs with
      | c0 :: c1 :: rest =>
          simp only [List.getD_cons_succ, List.getD_cons_zero, schedStarts]
          exact le_max_left _ _
  | succ i ih =>
      intro cs cursor hlen
      match cs with
      | c :: rest =>
          simp only [List.getD_cons_succ, schedStarts]
          exact ih rest (max cursor c.1 + c.2) (by simpa using hlen)

theorem schedStarts_ge_now (i : ℕ) :
    ∀ (cs : List (ℚ × ℚ)) (cursor : ℚ), i < cs.length →
    (cs.getD i (0, 0)).1 ≤ (schedStarts cursor cs).getD i 0 := by
  induction i with
  | zero =>
      intro cs cursor hlen
      match cs with
      | c :: rest =>
          simp only [List.getD_cons_zero, schedStarts]
          exact le_max_right _ _
  | succ i ih =>
      intro cs cursor hlen
      match cs with
      | c :: rest =>
          simp only [List.getD_cons_succ, schedStarts]
          exact ih rest (max cursor c.1 + c.2) (by simpa using hlen)

theorem schedStarts_ge_cursor (i : ℕ) :
    ∀ (cs : List (ℚ × ℚ)) (cursor : ℚ), i < cs.length →
    schedCursor cursor (cs.take i) ≤ (schedStarts cursor cs).getD i 0 := by
  induction i with
  | zero =>
      intro cs cursor hlen
      match cs with
      | c :: rest =>
          simp only [List.take, schedCursor, List.getD_cons_zero, schedStarts]
          exact le_max_left _ _
  | succ i ih =>
      intro cs cursor hlen
      match cs with
      | c :: rest =>
          simp only [List.take, schedCursor, List.getD_cons_succ, schedStarts]
          exact ih rest (max cursor c.1 + c.2) (by simpa using hlen)

theorem schedCursor_after (i : ℕ) :
    ∀ (cs : List (ℚ × ℚ)) (cursor : ℚ), i < cs.length →
    schedCursor cursor (cs.take (i + 1))
      = (schedStarts cursor cs).getD i 0 + (cs.getD i (0, 0)).2 := by
  induction i with
  | zero =>
      intro cs cursor hlen
      match cs with
      | c :: rest =>
          simp only [List.take, schedCursor, List.getD_cons_zero, schedStarts]
  | succ i ih =>
      intro cs cursor hlen
      match cs with
      | c :: rest =>
          simp only [List.take, schedCursor, List.getD_cons_succ, schedStarts]
          exact ih rest (max cursor c.1 + c.2) (by simpa using hlen)

/-! ### Transcript aggregator lemmas -/

/-- Claim C4: transport-encoding round trip — for every byte sequence `b`
(all entries below 256), `transportDecode (transportEncode b) = b`:
the base64 text produced by the encoder decodes back to exactly the
original bytes. -/
theorem transport_roundtrip (b : List ℕ) (h : ∀ x ∈ b, x < 256) :
    transportDecode (transportEncode b) = b :=
  b64_roundtrip b h

theorem transport_roundtrip_witness :
    transportDecode (transportEncode [0, 100, 255, 7]) = [0, 100, 255, 7] :=
  transport_roundtrip [0, 100, 255, 7] (by decide)

theorem forall2_codec_error : ∀ s : List ℚ, (∀ x ∈ s, -1 ≤ x ∧ x < 1) →
    List.Forall₂ (fun a b => |a - b| ≤ 1 / 32768)
      (s.map (fun x => ((encodeSample x : ℚ)) / 32768)) s
  | [], _ => List.Forall₂.nil
  | x :: xs, h =>
      List.Forall₂.cons
        (sample_error x (h x (by simp)).1 (h x (by simp)).2)
        (forall2_codec_error xs fun y hy => h y (by simp [hy]))

/-- Claim C5 (amended): lossy codec inverse — for every nonempty sample
sequence with each sample in the half-open range [-1, 1), decoding the
encoded frame with channel count 1 yields one channel of the same
length whose i-th element differs from the i-th input sample by at most
1/32768.  (At a sample equal to exactly 1.0 the unclipped Int16
conversion wraps to -32768, and on the empty sequence the zero-length
createBuffer call throws, so the closed range of the claim fails at two
concrete inputs; see the counterexample.) -/
theorem codec_inverse (s : List ℚ) (hs : s ≠ []) (h : ∀ x ∈ s, -1 ≤ x ∧ x < 1) :
    ∃ out, decodeFrame (encodeFrame s) 1 = some [out]
      ∧ out.length = s.length
      ∧ List.Forall₂ (fun a b => |a - b| ≤ 1 / 32768) out s :=
  ⟨s.map (fun x => ((encodeSample x : ℚ)) / 32768), decode_encodeFrame s hs,
    by simp, forall2_codec_error s h⟩

theorem codec_inverse_witness :
    ∃ out, decodeFrame (encodeFrame [(1 : ℚ)/2, -(1 : ℚ)/4]) 1 = some [out]
      ∧ out.length = ([(1 : ℚ)/2, -(1 : ℚ)/4] : List ℚ).length
      ∧ List.Forall₂ (fun a b => |a - b| ≤ 1 / 32768) out [(1 : ℚ)/2, -(1 : ℚ)/4] :=
  codec_inverse [(1 : ℚ)/2, -(1 : ℚ)/4] (List.cons_ne_nil _ _) (by
    intro x hx
    rcases List.mem_cons.mp hx with h1 | hx
    · constructor <;> rw [h1] <;> norm_num
    · rcases List.mem_cons.mp hx with h2 | hx
      · constructor <;> rw [h2] <;> norm_num
      · cases hx)

/-- Claim C5 counterexample: at the in-range sample 1.0 the encoder wraps
(1.0 · 32768 = 32768 becomes the Int16 value -32768), so the decoded
sample is -1.0, which differs from the input by 2, far more than one
quantization step; and on the empty sample sequence the decode fails
outright (zero-length createBuffer), producing no sequence at all —
the claim fails on the closed range [-1, 1] over all sequences. -/
theorem codec_inverse_cex :
    (decodeFrame (encodeFrame [(1 : ℚ)]) 1 = some [[-1]]
      ∧ ¬ (|(-1 : ℚ) - 1| ≤ 1 / 32768))
    ∧ decodeFrame (encodeFrame ([] : List ℚ)) 1 = none := by
  refine ⟨⟨?_, by norm_num⟩, by decide⟩
  · rw [decode_encodeFrame [(1 : ℚ)] (List.cons_ne_nil _ _)]
    have h1 : encodeSample 1 = -32768 := by
      unfold encodeSample truncRat
      rw [if_pos (by norm_num)]
      rw [show ((1 : ℚ) * 32768) = ((32768 : ℤ) : ℚ) by norm_num, Int.floor_intCast]
      decide
    simp only [List.map_cons, List.map_nil, h1]
    norm_num

/-- Claim C6 (amended): `decodeFrame` fails if and only if the byte
length is odd (RangeError constructing the Int16Array view) or the
floored frame count `byteLength / 2 / channelCount` is zero
(NotSupportedError from the zero-length createBuffer call, which also
covers channel count 0); on such malformed input no decoded data is
produced (`none`).  The failure condition is not the claimed
"byte length not a multiple of 2 · channelCount" — see the
counterexample. -/
theorem decodeFrame_fail_iff (b : List ℕ) (ch : ℕ) :
    decodeFrame b ch = none ↔ (b.length % 2 ≠ 0 ∨ b.length / 2 / ch = 0) := by
  unfold decodeFrame
  rw [bytesToInt16_length]
  split_ifs with hb hf
  · simp [hb]
  · simp [hb, hf]
  · simp [hb, hf]

/-- Claim C6 counterexample: six zero bytes with channel count 2 — the byte
length 6 is not a multiple of 2 · 2 = 4, yet `decodeFrame` does not
fail: it truncates to one frame per channel and returns data. -/
theorem decodeFrame_fail_cex :
    (decodeFrame [0, 0, 0, 0, 0, 0] 2).isSome = true
    ∧ ¬ (([0, 0, 0, 0, 0, 0] : List ℕ).length % (2 * 2) = 0) := by
  constructor
  · decide
  · decide

/-- Claim C1: gapless ordering — over any chunk sequence, whenever chunk
i+1 is processed while its arrival-time `now` is at or behind the
cursor (the predecessor has not finished), its assigned start time is
the start of the predecessor plus the duration of the predecessor; and in the
concrete scenario of three 0.5 s chunks all arriving at t = 0 the
schedule is 0, 0.5, 1.0 with final cursor 1.5. -/
theorem gapless_ordering :
    (∀ (cs : List (ℚ × ℚ)) (i : ℕ), i + 1 < cs.length →
      (cs.getD (i + 1) (0, 0)).1 ≤ (runChunks initState (cs.take (i + 1))).nextStartTime →
      (startsOf (runChunks initState cs)).getD (i + 1) 0
        = (startsOf (runChunks initState cs)).getD i 0 + (cs.getD i (0, 0)).2)
    ∧ startsOf (runChunks initState [(0, 1/2), (0, 1/2), (0, 1/2)]) = [0, 1/2, 1]
    ∧ (runChunks initState [(0, 1/2), (0, 1/2), (0, 1/2)]).nextStartTime = 3/2 := by
  refine ⟨?_,
    by norm_num [runChunks, startsOf, processAudio, initState, max_def, List.foldl],
    by norm_num [runChunks, processAudio, initState, max_def, List.foldl]⟩
  intro cs i hlen hcond
  rw [cursor_runChunks] at hcond
  rw [startsOf_runChunks]
  have h0 : startsOf initState = [] := rfl
  have hc : initState.nextStartTime = 0 := rfl
  rw [hc] at hcond
  rw [h0, List.nil_append, hc]
  exact schedStarts_gapless i cs 0 hlen hcond

theorem gapless_ordering_witness :
    (startsOf (runChunks initState [((0 : ℚ), (1 : ℚ)/2), (0, 1/2)])).getD 1 0
      = (startsOf (runChunks initState [((0 : ℚ), (1 : ℚ)/2), (0, 1/2)])).getD 0 0
        + (([((0 : ℚ), (1 : ℚ)/2), (0, 1/2)] : List (ℚ × ℚ)).getD 0 (0, 0)).2 :=
  gapless_ordering.1 [((0 : ℚ), (1 : ℚ)/2), (0, 1/2)] 0 (by decide)
    (by norm_num [runChunks, processAudio, initState, max_def, List.foldl])

/-- Claim C2: scheduler safety — each processed chunk is assigned start time
`max cursor now` and afterwards the cursor is that start plus the
duration; consequently over any chunk sequence every start is at least
the arrival time of the chunk and at least the cursor left by the previous
chunks, and consecutive chunks never overlap:
`start (i+1) ≥ start i + dur i`. -/
theorem scheduler_safety :
    (∀ (now dur : ℚ) (s : AState),
      startsOf (processAudio now dur s) = startsOf s ++ [max s.nextStartTime now]
      ∧ (processAudio now dur s).nextStartTime = max s.nextStartTime now + dur)
    ∧ (∀ (cs : List (ℚ × ℚ)) (i : ℕ), i < cs.length →
      (cs.getD i (0, 0)).1 ≤ (startsOf (runChunks initState cs)).getD i 0
      ∧ (runChunks initState (cs.take i)).nextStartTime
          ≤ (startsOf (runChunks initState cs)).getD i 0
      ∧ (runChunks initState (cs.take (i + 1))).nextStartTime
          = (startsOf (runChunks initState cs)).getD i 0 + (cs.getD i (0, 0)).2)
    ∧ (∀ (cs : List (ℚ × ℚ)) (i : ℕ), i + 1 < cs.length →
      (startsOf (runChunks initState cs)).getD i 0 + (cs.getD i (0, 0)).2
        ≤ (startsOf (runChunks initState cs)).getD (i + 1) 0) := by
  have h0 : startsOf initState = [] := rfl
  have hc : initState.nextStartTime = 0 := rfl
  refine ⟨fun now dur s => ⟨startsOf_processAudio now dur s, cursor_processAudio now dur s⟩,
    ?_, ?_⟩
  · intro cs i hlen
    rw [cursor_runChunks, cursor_runChunks, startsOf_runChunks, h0, List.nil_append, hc]
    exact ⟨schedStarts_ge_now i cs 0 hlen, schedStarts_ge_cursor i cs 0 hlen,
      schedCursor_after i cs 0 hlen⟩
  · intro cs i hlen
    rw [startsOf_runChunks, h0, List.nil_append, hc]
    exact schedStarts_no_overlap i cs 0 hlen

theorem scheduler_safety_witness :
    (startsOf (runChunks initState [((0 : ℚ), (1 : ℚ)/2), (3, 1/2)])).getD 0 0
        + (([((0 : ℚ), (1 : ℚ)/2), (3, 1/2)] : List (ℚ × ℚ)).getD 0 (0, 0)).2
      ≤ (startsOf (runChunks initState [((0 : ℚ), (1 : ℚ)/2), (3, 1/2)])).getD 1 0 :=
  scheduler_safety.2.2 [((0 : ℚ), (1 : ℚ)/2), (3, 1/2)] 0 (by decide)

/-- Claim C3: barge-in — after an inbound Interrupted message is processed,
the pending set is empty, every source whose id was in the pending set
has been stopped, and the cursor is reset to 0, which is at or below
any future (nonnegative) output-device time, so the next chunk
schedules at `now` immediately. -/
theorem barge_in (now : ℚ) (s : AState) :
    (processMessage now interruptMsg s).pending = []
    ∧ (∀ src ∈ (processMessage now interruptMsg s).played,
        src.id ∈ s.pending → src.stopped = true)
    ∧ (processMessage now interruptMsg s).nextStartTime = 0
    ∧ (∀ t : ℚ, 0 ≤ t → (processMessage now interruptMsg s).nextStartTime ≤ t) := by
  have h : processMessage now interruptMsg s = onInterrupted s := rfl
  rw [h]
  unfold onInterrupted
  refine ⟨rfl, ?_, rfl, ?_⟩
  · intro src hsrc hid
    rcases List.mem_map.mp hsrc with ⟨a, ha, rfl⟩
    by_cases hmem : a.id ∈ s.pending
    · simp [hmem]
    · simp only [if_neg hmem] at hid ⊢
      exact absurd hid hmem
  · intro t ht
    simpa using ht

/-- A concrete mid-utterance state: one pending source (id 7), cursor
ahead of the clock. -/
def st3 : AState :=
  { nextStartTime := 5/2, pending := [7], played := [⟨7, 0, 1, false⟩],
    transcript := [], nextId := 8, session := some 0, isActive := true,
    micOpen := true }

theorem barge_in_witness :
    (processMessage 0 interruptMsg st3).pending = []
    ∧ (processMessage 0 interruptMsg st3).nextStartTime ≤ 3 :=
  ⟨(barge_in 0 st3).1, (barge_in 0 st3).2.2.2 3 (by norm_num)⟩

/-- A concrete active session state for the stop claims: a live
session, one pending playback source, microphone open. -/
def st7 : AState :=
  { nextStartTime := 2, pending := [1], played := [⟨1, 0, 1, false⟩],
    transcript := [], nextId := 2, session := some 0, isActive := true,
    micOpen := true }

/-- Claim C7 (code bug): `stopAssistant` only closes the session and clears
the active flag — evaluated at a state with a pending playback source
and an open microphone, the pending set is unchanged, the source is
not stopped, and the input device is still open, contradicting the
specified stop sequence. -/
theorem stop_leaves_resources :
    (stopAssistant st7).session = none
    ∧ (stopAssistant st7).isActive = false
    ∧ (stopAssistant st7).pending = [1]
    ∧ (stopAssistant st7).played = [⟨1, 0, 1, false⟩]
    ∧ (stopAssistant st7).micOpen = true := by
  refine ⟨rfl, rfl, rfl, rfl, rfl⟩

/-- Claim C8: idempotent stop — a second `stopAssistant` call finds the
session ref already null, skips the close, and re-clears the active
flag, producing exactly the state of the first call; the function is
total (no error). -/
theorem stop_idempotent (s : AState) :
    stopAssistant (stopAssistant s) = stopAssistant s := by
  rcases s with ⟨nst, p, pl, t, ni, sess, act, mic⟩
  cases sess <;> rfl

/-- Claim C10: frame effect of transcript processing — an inbound message
with no audio payload and no interrupted flag leaves the output-clock
cursor and the pending playback set exactly unchanged. -/
theorem transcript_frame (now : ℚ) (msg : LiveServerMessage) (s : AState)
    (ha : msg.audioData = none) (hi : msg.interrupted = false) :
    (processMessage now msg s).nextStartTime = s.nextStartTime
    ∧ (processMessage now msg s).pending = s.pending := by
  rcases msg with ⟨a, o, i, b⟩
  simp only at ha hi
  subst ha
  subst hi
  cases o <;> cases i <;> simp [processMessage, processRest]

theorem transcript_frame_witness :
    (processMessage 0 ⟨none, some "hi", none, false⟩ initState).nextStartTime
      = initState.nextStartTime
    ∧ (processMessage 0 ⟨none, some "hi", none, false⟩ initState).pending
      = initState.pending :=
  transcript_frame 0 ⟨none, some "hi", none, false⟩ initState rfl rfl

end CulinaryQ
